import Mathlib

/-!
A shallow embedding of `wordlist_tool.py` (the AOSP dictionary wordlist
generator) and proofs about it.

Modelling conventions:
* Python exceptions are explicit values (`PyErr`); a function that can raise
  returns `Except PyErr _` or records the error in its result.
* `math.log(x, 1.15)` over floats is modelled by the exact real `Real.log`
  (the base-1.15 factor cancels in the quotient the code computes); Python's
  `round` is modelled by Mathlib's `round`.  The claims proved here (range
  bounds, endpoint values, monotonicity) are insensitive to the tie-breaking
  rule and to float rounding at the evaluation points used.
* The external collaborators (the hunspell spell checker, `str.capitalize`,
  `str.isalpha`, Unicode NFC normalization, the nltk tokenizer) are parameters:
  the tokenizer's output is a `List (List String)` of tokens per line, and the
  rest are function-valued fields/arguments.
* Python `dict`s are insertion-ordered association lists; `sorted(·, key=count,
  reverse=True)` is a stable merge sort with comparator `b.count ≤ a.count`.
* Writing to the output file is modelled by a `WriteOutcome`: whether the file
  was opened, the lines written before any uncaught exception, and the
  exception (if any) that terminated the run.
-/

namespace WordlistTool

/-- Python exceptions the tool can raise (uncaught) in the modelled code. -/
inductive PyErr where
  | valueError
  | zeroDivisionError
deriving DecidableEq

/-- `MONOGRAM_SPACE = 175` from the source. -/
def MONOGRAM_SPACE : ℕ := 175

/-- The real-valued score the source computes when no exception is raised:
`round((255 - MONOGRAM_SPACE - 1) * (log(cnt,1.15)/log(max,1.15)) + MONOGRAM_SPACE + 1)`
for bigrams and
`round((MONOGRAM_SPACE - 1) * (log(cnt,1.15)/log(max,1.15)) + 1)` for words.
The base-1.15 logarithms appear only as a quotient, so the base cancels and
`Real.log` is used directly. -/
noncomputable def freqVal (word_cnt max_cnt : ℕ) (bigram : Bool) : ℤ :=
  if bigram then
    round (((255 : ℝ) - (MONOGRAM_SPACE : ℝ) - 1) *
        (Real.log word_cnt / Real.log max_cnt) + (MONOGRAM_SPACE : ℝ) + 1)
  else
    round (((MONOGRAM_SPACE : ℝ) - 1) *
        (Real.log word_cnt / Real.log max_cnt) + 1)

/-- `word_cnt_to_freq` from the source.  `math.log(0, 1.15)` raises
`ValueError` (math domain error), as does a zero `max_cnt`; when
`max_cnt = 1` the denominator `math.log(1, 1.15)` is `0.0` and the float
division raises `ZeroDivisionError`.  Otherwise the rounded score is
returned. -/
noncomputable def word_cnt_to_freq (word_cnt max_cnt : ℕ) (bigram : Bool) :
    Except PyErr ℤ :=
  if word_cnt = 0 ∨ max_cnt = 0 then .error .valueError
  else if max_cnt = 1 then .error .zeroDivisionError
  else .ok (freqVal word_cnt max_cnt bigram)

/-! ### Generic association-list operations mirroring Python `dict` usage -/

/-- `if k not in d: d[k] = 0` — ensure a key is present, initialised to `0`,
appending it at the end (Python dicts preserve insertion order). -/
def alistEnsure {κ : Type} [DecidableEq κ] (d : List (κ × ℕ)) (k : κ) :
    List (κ × ℕ) :=
  if d.any (fun p => decide (p.1 = k)) then d else d ++ [(k, 0)]

/-- `d[k] += 1` — increment the count stored at key `k` (in place). -/
def alistIncr {κ : Type} [DecidableEq κ] (d : List (κ × ℕ)) (k : κ) :
    List (κ × ℕ) :=
  d.map (fun p => if p.1 = k then (p.1, p.2 + 1) else p)

/-! ### `generate_ngrams` -/

/-- One monogram step of `generate_ngrams`: for a (normalized) token, if it is
all-alphabetic, ensure its entry exists and increment it unless the token is in
the profanity set. -/
def stepMono (profanity : List String) (isAlpha : String → Bool)
    (d : List (String × ℕ)) (t : String) : List (String × ℕ) :=
  if isAlpha t then
    let d1 := alistEnsure d t
    if t ∈ profanity then d1 else alistIncr d1 t
  else d

/-- One bigram step of `generate_ngrams`: for an adjacent (normalized) pair,
if both tokens are alphabetic and neither is profane, create-and-increment the
pair's entry; otherwise skip the pair entirely. -/
def stepBi (profanity : List String) (isAlpha : String → Bool)
    (d : List ((String × String) × ℕ)) (p : String × String) :
    List ((String × String) × ℕ) :=
  if isAlpha p.1 && isAlpha p.2 &&
      !(decide (p.1 ∈ profanity)) && !(decide (p.2 ∈ profanity)) then
    alistIncr (alistEnsure d p) p
  else d

/-- Insert an entry into a descending-by-count sorted list, after every
entry of count `≥` its own (so ties keep first-come-first order). -/
def insertByCountDesc {κ : Type} (x : κ × ℕ) : List (κ × ℕ) → List (κ × ℕ)
  | [] => [x]
  | y :: ys => if y.2 < x.2 then x :: y :: ys else y :: insertByCountDesc x ys

/-- `sorted(d.items(), key=lambda i: i[1], reverse=True)`: a stable sort by
descending count.  Python's sort is stable (ties keep insertion order), and a
stable sort by a fixed key is extensionally unique, so this structural
insertion sort computes exactly the list the source's `sorted` returns. -/
def sortByCountDesc {κ : Type} (l : List (κ × ℕ)) : List (κ × ℕ) :=
  l.foldl (fun acc x => insertByCountDesc x acc) []

/-- `generate_ngrams` from the source.  The corpus arrives already tokenized
(one token list per line, tokenization being external); each token is pushed
through the external `normalize` (NFC + lowercase in the source) and the
external `isAlpha` (`str.isalpha`).  Returns the monogram and bigram tables,
each sorted by descending count. -/
def generate_ngrams (normalize : String → String) (isAlpha : String → Bool)
    (profanity : List String) (corpus : List (List String)) :
    List (String × ℕ) × List ((String × String) × ℕ) :=
  let tables := corpus.foldl (fun st toks =>
    let ntoks := toks.map normalize
    (ntoks.foldl (stepMono profanity isAlpha) st.1,
     (ntoks.zip ntoks.tail).foldl (stepBi profanity isAlpha) st.2))
    ([], [])
  (sortByCountDesc tables.1, sortByCountDesc tables.2)

/-! ### `write_wordlist` -/

/-- The external collaborators used by `write_wordlist`: the hunspell
validator (`hobj.spell`, which can raise `UnicodeEncodeError`, modelled as the
`Except` error) and Python's Unicode casing functions `str.capitalize` and
`str.lower`. -/
structure Ctx where
  spell : String → Except Unit Bool
  capitalize : String → String
  lower : String → String

/-- The observable effect of one `write_wordlist` call: whether the output
file was opened at all, the lines written to it (in order, each terminated by
a newline in the source), and the uncaught exception, if any, that aborted the
call. -/
structure WriteOutcome where
  opened : Bool
  lines : List String
  error : Option PyErr
deriving DecidableEq

/-- Accumulated output of a region of the writing loop: the lines it wrote
before any uncaught exception, and that exception if one occurred. -/
structure Emit where
  lines : List String
  error : Option PyErr
deriving DecidableEq

/-- Sequence two emitting regions: if the first raised, the second never
runs. -/
def Emit.andThen (a b : Emit) : Emit :=
  match a.error with
  | some _ => a
  | none => ⟨a.lines ++ b.lines, b.error⟩

/-- The casing resolution for a word entry (source lines 88–95): try the
normalized key with the validator, then — only on a clean rejection — its
capitalized form; a `UnicodeEncodeError` from either call is caught and the
word is dropped (`word` stays `None`). -/
def resolveWord (ctx : Ctx) (key : String) : Option String :=
  match ctx.spell key with
  | .error _ => none
  | .ok true => some key
  | .ok false =>
    match ctx.spell (ctx.capitalize key) with
    | .error _ => none
    | .ok true => some (ctx.capitalize key)
    | .ok false => none

/-- The grouping index of source lines 79–83: map each bigram's leading token
to the list of (trailing token, count) pairs, in the bigram list's order. -/
def bigram_dict (bigrams : List ((String × String) × ℕ)) :
    List (String × List (String × ℕ)) :=
  bigrams.foldl (fun d bg =>
    if d.any (fun e => decide (e.1 = bg.1.1)) then
      d.map (fun e => if e.1 = bg.1.1 then (e.1, e.2 ++ [(bg.1.2, bg.2)]) else e)
    else d ++ [(bg.1.1, [(bg.1.2, bg.2)])]) []

/-- `bigram_dict.get(word, [])`. -/
def dictGet (d : List (String × List (String × ℕ))) (k : String) :
    List (String × ℕ) :=
  match d.find? (fun e => decide (e.1 = k)) with
  | some e => e.2
  | none => []

/-- The word-frequency branch of source lines 97–100: a raw count of `0`
(the profanity marker) maps to frequency `0` without consulting the
quantizer; any other count goes through `word_cnt_to_freq`. -/
noncomputable def monogram_freq (cnt max_monogram_cnt : ℕ) : Except PyErr ℤ :=
  if cnt = 0 then .ok 0 else word_cnt_to_freq cnt max_monogram_cnt false

/-- The trailing (`bigram=`) half of the writing loop, source lines 105–116:
each grouped (trailing token, count) pair is validated with the stored token
only (no capitalization fallback); a `UnicodeEncodeError` is caught and the
pair skipped; a quantizer exception (possible when `max_bigram_cnt = 1`) is
not caught and aborts the loop. -/
noncomputable def writeBigrams (ctx : Ctx) (offensive : List String)
    (max_bigram_cnt : ℕ) : List (String × ℕ) → Emit
  | [] => ⟨[], none⟩
  | p :: rest =>
    match ctx.spell p.1 with
    | .error _ => writeBigrams ctx offensive max_bigram_cnt rest
    | .ok false => writeBigrams ctx offensive max_bigram_cnt rest
    | .ok true =>
      match word_cnt_to_freq p.2 max_bigram_cnt true with
      | .error e => ⟨[], some e⟩
      | .ok f =>
        Emit.andThen
          ⟨["  bigram=" ++ p.1 ++ ",f=" ++ toString f ++
              (if p.1 ∈ offensive then ",possibly_offensive=true" else "")],
            none⟩
          (writeBigrams ctx offensive max_bigram_cnt rest)

/-- One iteration of the main writing loop (source lines 87–116): resolve the
word's surface form (skip the word and its group on failure), compute its
frequency, write the ` word=` line, then write the bigram group looked up in
`bigram_dict` — with the resolved surface form as the key. -/
noncomputable def writeMonogram (ctx : Ctx) (offensive : List String)
    (max_monogram_cnt max_bigram_cnt : ℕ)
    (bd : List (String × List (String × ℕ))) (m : String × ℕ) : Emit :=
  match resolveWord ctx m.1 with
  | none => ⟨[], none⟩
  | some word =>
    match monogram_freq m.2 max_monogram_cnt with
    | .error e => ⟨[], some e⟩
    | .ok freq =>
      Emit.andThen
        ⟨[" word=" ++ word ++ ",f=" ++ toString freq ++
            (if word ∈ offensive then ",possibly_offensive=true" else "")],
          none⟩
        (writeBigrams ctx offensive max_bigram_cnt (dictGet bd word))

/-- The whole `for monogram in monograms` loop. -/
noncomputable def writeBody (ctx : Ctx) (offensive : List String)
    (max_monogram_cnt max_bigram_cnt : ℕ)
    (bd : List (String × List (String × ℕ))) : List (String × ℕ) → Emit
  | [] => ⟨[], none⟩
  | m :: rest =>
    Emit.andThen
      (writeMonogram ctx offensive max_monogram_cnt max_bigram_cnt bd m)
      (writeBody ctx offensive max_monogram_cnt max_bigram_cnt bd rest)

/-- `write_wordlist` from the source.  `max([i[1] for i in monograms])` and
the analogous bigram maximum are computed before the output file is opened;
on an empty list Python's `max` raises `ValueError`, so the file is never
created.  Otherwise the header line is written first and the body follows.
The generation timestamp (`int(time.time())`) is an explicit parameter. -/
noncomputable def write_wordlist (ctx : Ctx) (monograms : List (String × ℕ))
    (bigrams : List ((String × String) × ℕ)) (lang description : String)
    (timestamp : ℤ) (offensive : List String) : WriteOutcome :=
  if monograms.isEmpty then ⟨false, [], some .valueError⟩
  else if bigrams.isEmpty then ⟨false, [], some .valueError⟩
  else
    let max_monogram_cnt := (monograms.map Prod.snd).foldl Nat.max 0
    let max_bigram_cnt := (bigrams.map Prod.snd).foldl Nat.max 0
    let bd := bigram_dict bigrams
    let header := "dictionary=main:" ++ ctx.lower lang ++ ",locale=" ++ lang
      ++ ",description=" ++ description ++ ",date=" ++ toString timestamp ++
      ",version=1"
    let body := writeBody ctx offensive max_monogram_cnt max_bigram_cnt bd
      monograms
    ⟨true, header :: body.lines, body.error⟩

/-- The `__main__` wiring: count the corpus with the profanity set, truncate
the monogram list to `limit` and the bigram list to `min(5 * 10**4, limit)`,
and write the wordlist with the offensive set
`set(m_offensive + m_profanity)`. -/
noncomputable def main_run (ctx : Ctx) (normalize : String → String)
    (isAlpha : String → Bool) (corpus : List (List String))
    (profanityList offensiveList : List String) (limit : ℕ)
    (lang description : String) (timestamp : ℤ) : WriteOutcome :=
  let tables := generate_ngrams normalize isAlpha profanityList corpus
  write_wordlist ctx (tables.1.take limit)
    (tables.2.take (min (5 * 10 ^ 4) limit)) lang description timestamp
    (offensiveList ++ profanityList)

/-! ### Concrete collaborator instances (used to instantiate theorems) -/

/-- A validator that rejects every surface form; the casing functions are
the identity on the (already lowercase) strings exercised. -/
def ctxReject : Ctx := ⟨fun _ => .ok false, fun s => s, fun s => s⟩

/-- A validator that accepts exactly `"Cat"` and `"sat"`; `str.capitalize`
and `str.lower` restricted to the strings exercised. -/
def ctxCapCat : Ctx :=
  ⟨fun s => if s = "Cat" ∨ s = "sat" then .ok true else .ok false,
   fun s => if s = "cat" then "Cat" else s,
   fun s => s⟩

/-- A validator that accepts exactly `"the"` and `"Cat"`; `str.capitalize`
and `str.lower` restricted to the strings exercised. -/
def ctxTheCat : Ctx :=
  ⟨fun s => if s = "the" ∨ s = "Cat" then .ok true else .ok false,
   fun s => if s = "cat" then "Cat" else if s = "the" then "The" else s,
   fun s => s⟩

/-- A validator that accepts exactly `"Damn"`; `str.capitalize` and
`str.lower` restricted to the strings exercised. -/
def ctxDamn : Ctx :=
  ⟨fun s => if s = "Damn" then .ok true else .ok false,
   fun s => if s = "damn" then "Damn" else s,
   fun s => s⟩

/-- A validator that accepts every surface form; the casing functions are
the identity on the (already lowercase) strings exercised. -/
def ctxAcceptAll : Ctx := ⟨fun _ => .ok true, fun s => s, fun s => s⟩

/-! ## Quantizer lemmas -/

/-- `round` is monotone. -/
theorem round_mono_le {x y : ℝ} (h : x ≤ y) : round x ≤ round y := by
  rw [round_eq, round_eq]
  exact Int.floor_mono (by linarith)

/-- The denominator `log max_cnt` is positive once `max_cnt ≥ 2`. -/
theorem log_den_pos {max_cnt : ℕ} (h : 2 ≤ max_cnt) : 0 < Real.log max_cnt :=
  Real.log_pos (by exact_mod_cast h.trans_lt' one_lt_two)

/-- The log ratio the quantizer scales lies in `[0, 1]` on the intended
domain. -/
theorem log_ratio_mem {c max_cnt : ℕ} (h2 : 2 ≤ max_cnt) (h1 : 1 ≤ c)
    (hcm : c ≤ max_cnt) :
    0 ≤ Real.log c / Real.log max_cnt ∧ Real.log c / Real.log max_cnt ≤ 1 := by
  have hd := log_den_pos h2
  constructor
  · exact div_nonneg (Real.log_nonneg (by exact_mod_cast h1)) hd.le
  · exact (div_le_one hd).mpr
      (Real.log_le_log (by exact_mod_cast h1) (by exact_mod_cast hcm))

/-- Range of the word score: `[1, 175]` on the intended domain. -/
theorem freqVal_uni_bounds {c max_cnt : ℕ} (h2 : 2 ≤ max_cnt) (h1 : 1 ≤ c)
    (hcm : c ≤ max_cnt) :
    1 ≤ freqVal c max_cnt false ∧ freqVal c max_cnt false ≤ 175 := by
  obtain ⟨hr0, hr1⟩ := log_ratio_mem h2 h1 hcm
  have e : freqVal c max_cnt false =
      round ((174 : ℝ) * (Real.log c / Real.log max_cnt) + 1) := by
    unfold freqVal MONOGRAM_SPACE
    norm_num
  constructor
  · have := round_mono_le (x := (1 : ℝ))
      (y := (174 : ℝ) * (Real.log c / Real.log max_cnt) + 1) (by nlinarith)
    rw [e]
    simpa using this
  · have := round_mono_le
      (x := (174 : ℝ) * (Real.log c / Real.log max_cnt) + 1) (y := (175 : ℝ))
      (by nlinarith)
    rw [e]
    have h175 : round ((175 : ℝ)) = (175 : ℤ) := by
      rw [show ((175 : ℝ)) = ((175 : ℤ) : ℝ) by norm_num, round_intCast]
    omega

/-- Range of the bigram score: `[176, 255]` on the intended domain. -/
theorem freqVal_bi_bounds {c max_cnt : ℕ} (h2 : 2 ≤ max_cnt) (h1 : 1 ≤ c)
    (hcm : c ≤ max_cnt) :
    176 ≤ freqVal c max_cnt true ∧ freqVal c max_cnt true ≤ 255 := by
  obtain ⟨hr0, hr1⟩ := log_ratio_mem h2 h1 hcm
  have e : freqVal c max_cnt true =
      round ((79 : ℝ) * (Real.log c / Real.log max_cnt) + 176) := by
    unfold freqVal MONOGRAM_SPACE
    norm_num
    ring_nf
  constructor
  · have := round_mono_le (x := (176 : ℝ))
      (y := (79 : ℝ) * (Real.log c / Real.log max_cnt) + 176) (by nlinarith)
    rw [e]
    have h176 : round ((176 : ℝ)) = (176 : ℤ) := by
      rw [show ((176 : ℝ)) = ((176 : ℤ) : ℝ) by norm_num, round_intCast]
    omega
  · have := round_mono_le
      (x := (79 : ℝ) * (Real.log c / Real.log max_cnt) + 176) (y := (255 : ℝ))
      (by nlinarith)
    rw [e]
    have h255 : round ((255 : ℝ)) = (255 : ℤ) := by
      rw [show ((255 : ℝ)) = ((255 : ℤ) : ℝ) by norm_num, round_intCast]
    omega

/-- At the maximum count the word score is exactly `175`. -/
theorem freqVal_self_uni {max_cnt : ℕ} (h2 : 2 ≤ max_cnt) :
    freqVal max_cnt max_cnt false = 175 := by
  have e : Real.log max_cnt / Real.log max_cnt = 1 :=
    div_self (log_den_pos h2).ne'
  unfold freqVal MONOGRAM_SPACE
  norm_num [e]

/-- At the maximum count the bigram score is exactly `255`. -/
theorem freqVal_self_bi {max_cnt : ℕ} (h2 : 2 ≤ max_cnt) :
    freqVal max_cnt max_cnt true = 255 := by
  have e : Real.log max_cnt / Real.log max_cnt = 1 :=
    div_self (log_den_pos h2).ne'
  unfold freqVal MONOGRAM_SPACE
  norm_num [e]

/-- The score is monotone in the count (for a fixed valid maximum). -/
theorem freqVal_mono {c1 c2 max_cnt : ℕ} (b : Bool) (h2 : 2 ≤ max_cnt)
    (h1 : 1 ≤ c1) (h12 : c1 ≤ c2) :
    freqVal c1 max_cnt b ≤ freqVal c2 max_cnt b := by
  have hd := log_den_pos h2
  have hlog : Real.log c1 ≤ Real.log c2 :=
    Real.log_le_log (by exact_mod_cast h1) (by exact_mod_cast h12)
  have hr : Real.log c1 / Real.log max_cnt ≤ Real.log c2 / Real.log max_cnt :=
    div_le_div_of_nonneg_right hlog hd.le
  unfold freqVal MONOGRAM_SPACE
  cases b
  · rw [if_neg (by simp)]
    exact round_mono_le (by push_cast; nlinarith [hr])
  · rw [if_pos rfl]
    exact round_mono_le (by push_cast; nlinarith [hr])

/-- On the non-raising domain `word_cnt_to_freq` returns the rounded
score. -/
theorem word_cnt_to_freq_ok {c max_cnt : ℕ} (h1 : 1 ≤ c) (h2 : 2 ≤ max_cnt)
    (b : Bool) : word_cnt_to_freq c max_cnt b = .ok (freqVal c max_cnt b) := by
  unfold word_cnt_to_freq
  rw [if_neg (by omega), if_neg (by omega)]

/-- Conversely, an `ok` result pins down the domain and the value. -/
theorem word_cnt_to_freq_ok_inv {c max_cnt : ℕ} {b : Bool} {v : ℤ}
    (h : word_cnt_to_freq c max_cnt b = .ok v) :
    1 ≤ c ∧ 2 ≤ max_cnt ∧ v = freqVal c max_cnt b := by
  unfold word_cnt_to_freq at h
  split at h
  · exact absurd h (by simp)
  · split at h
    · exact absurd h (by simp)
    · refine ⟨by omega, by omega, by injection h with h; omega⟩

/-- `log 1 = 0`, so a count of `1` lands on the bottom of the word
sub-range. -/
theorem freqVal_one_uni (max_cnt : ℕ) : freqVal 1 max_cnt false = 1 := by
  unfold freqVal MONOGRAM_SPACE
  norm_num

/-- A count of `1` lands on the bottom of the bigram sub-range. -/
theorem freqVal_one_bi (max_cnt : ℕ) : freqVal 1 max_cnt true = 176 := by
  unfold freqVal MONOGRAM_SPACE
  norm_num

/-- Concrete evaluation: `word_cnt_to_freq(1, 2, False) = 1`. -/
theorem wctf_1_2_uni : word_cnt_to_freq 1 2 false = .ok 1 := by
  rw [word_cnt_to_freq_ok (by norm_num) (by norm_num), freqVal_one_uni]

/-- Concrete evaluation: `word_cnt_to_freq(2, 2, False) = 175`. -/
theorem wctf_2_2_uni : word_cnt_to_freq 2 2 false = .ok 175 := by
  rw [word_cnt_to_freq_ok (by norm_num) (by norm_num),
    freqVal_self_uni (le_refl 2)]

/-- Concrete evaluation: `word_cnt_to_freq(2, 2, True) = 255`. -/
theorem wctf_2_2_bi : word_cnt_to_freq 2 2 true = .ok 255 := by
  rw [word_cnt_to_freq_ok (by norm_num) (by norm_num),
    freqVal_self_bi (le_refl 2)]

/-! ## Claims -/

/-- Claim C1, counterexample: at `max_cnt = 2` the word score of the maximum
count is `175`, not `174` (so it is also outside the claimed range `[1,174]`),
and at `max_cnt = 1` the quantizer raises `ZeroDivisionError` instead of
returning the top of the sub-range. -/
theorem C1_counterexample :
    word_cnt_to_freq 2 2 false = .ok 175 ∧
    word_cnt_to_freq 2 2 false ≠ .ok 174 ∧
    word_cnt_to_freq 1 1 false = .error .zeroDivisionError := by
  refine ⟨wctf_2_2_uni, ?_, ?_⟩
  · rw [wctf_2_2_uni]
    simp
  · simp [word_cnt_to_freq]

/-- Claim C1 (amended): for every `max_cnt ≥ 2` and every count
`0 < c ≤ max_cnt`, the quantizer returns an integer in `[1,175]` for words
and in `[176,255]` for bigrams, and at `c = max_cnt` it returns exactly the
top of the sub-range: `175` for words and `255` for bigrams.  (At
`max_cnt = 1` it raises `ZeroDivisionError` instead.) -/
theorem C1_quantizer_range (max_cnt cnt : ℕ) (h2 : 2 ≤ max_cnt)
    (h0 : 0 < cnt) (hcm : cnt ≤ max_cnt) :
    (∃ u : ℤ, word_cnt_to_freq cnt max_cnt false = .ok u ∧ 1 ≤ u ∧ u ≤ 175) ∧
    (∃ v : ℤ, word_cnt_to_freq cnt max_cnt true = .ok v ∧ 176 ≤ v ∧ v ≤ 255) ∧
    word_cnt_to_freq max_cnt max_cnt false = .ok 175 ∧
    word_cnt_to_freq max_cnt max_cnt true = .ok 255 := by
  refine ⟨⟨freqVal cnt max_cnt false, word_cnt_to_freq_ok h0 h2 false, ?_, ?_⟩,
    ⟨freqVal cnt max_cnt true, word_cnt_to_freq_ok h0 h2 true, ?_, ?_⟩, ?_, ?_⟩
  · exact (freqVal_uni_bounds h2 h0 hcm).1
  · exact (freqVal_uni_bounds h2 h0 hcm).2
  · exact (freqVal_bi_bounds h2 h0 hcm).1
  · exact (freqVal_bi_bounds h2 h0 hcm).2
  · rw [word_cnt_to_freq_ok (by omega) h2 false, freqVal_self_uni h2]
  · rw [word_cnt_to_freq_ok (by omega) h2 true, freqVal_self_bi h2]

/-- Witness for C1 at `max_cnt = 2`, `cnt = 2`. -/
theorem C1_quantizer_range_witness :
    word_cnt_to_freq 2 2 false = .ok 175 ∧ word_cnt_to_freq 2 2 true = .ok 255
    := by
  have h := C1_quantizer_range 2 2 (by norm_num) (by norm_num) (by norm_num)
  exact ⟨h.2.2.1, h.2.2.2⟩

/-- Claim C5: a raw count of `0` quantizes to `0` unconditionally, for every
`max_monogram_cnt` — the profanity-marker branch of the frequency
computation. -/
theorem C5_zero_count_freq (max_monogram_cnt : ℕ) :
    monogram_freq 0 max_monogram_cnt = .ok 0 := by
  simp [monogram_freq]

/-- Witness for C5 at `max_monogram_cnt = 7`. -/
theorem C5_zero_count_freq_witness : monogram_freq 0 7 = .ok 0 :=
  C5_zero_count_freq 7

/-- Claim C8: for a fixed `max_cnt`, whenever two counts
`0 < c1 ≤ c2 ≤ max_cnt` both quantize without raising, the scores are
monotonically non-decreasing in the count — for words and bigrams alike. -/
theorem C8_quantizer_monotone (b : Bool) (max_cnt c1 c2 : ℕ) (v1 v2 : ℤ)
    (h0 : 0 < c1) (h12 : c1 ≤ c2) (h2m : c2 ≤ max_cnt)
    (e1 : word_cnt_to_freq c1 max_cnt b = .ok v1)
    (e2 : word_cnt_to_freq c2 max_cnt b = .ok v2) : v1 ≤ v2 := by
  obtain ⟨hc1, hm, rfl⟩ := word_cnt_to_freq_ok_inv e1
  obtain ⟨hc2, -, rfl⟩ := word_cnt_to_freq_ok_inv e2
  exact freqVal_mono b hm hc1 h12

/-- Witness for C8 at `max_cnt = 2`, `c1 = 1`, `c2 = 2`. -/
theorem C8_quantizer_monotone_witness : (1 : ℤ) ≤ 175 :=
  C8_quantizer_monotone false 2 1 2 1 175 (by norm_num) (by norm_num)
    (by norm_num) wctf_1_2_uni wctf_2_2_uni

/-! ## Counting-phase lemmas (for the `generate_ngrams` invariant) -/

/-- Membership after `alistEnsure`: an old entry, or the fresh `(k, 0)`. -/
theorem mem_alistEnsure {κ : Type} [DecidableEq κ] {d : List (κ × ℕ)} {k : κ}
    {p : κ × ℕ} (hp : p ∈ alistEnsure d k) : p ∈ d ∨ p = (k, 0) := by
  unfold alistEnsure at hp
  split at hp
  · exact Or.inl hp
  · rcases List.mem_append.mp hp with h | h
    · exact Or.inl h
    · exact Or.inr (by simpa using h)

/-- Membership after `alistIncr`: the image of an old entry. -/
theorem mem_alistIncr {κ : Type} [DecidableEq κ] {d : List (κ × ℕ)} {k : κ}
    {p : κ × ℕ} (hp : p ∈ alistIncr d k) :
    ∃ q ∈ d, p = if q.1 = k then (q.1, q.2 + 1) else q := by
  unfold alistIncr at hp
  rcases List.mem_map.mp hp with ⟨q, hq, he⟩
  exact ⟨q, hq, he.symm⟩

/-- One monogram step preserves the profanity/count invariant, the
alphabetic-key invariant and any key-provenance predicate `Q` that holds of
the incoming token. -/
theorem stepMono_inv {P : List String} {isAlpha : String → Bool}
    {Q : String → Prop} {d : List (String × ℕ)} {t : String}
    (hd : ∀ p ∈ d, (p.2 = 0 ↔ p.1 ∈ P) ∧ isAlpha p.1 = true ∧ Q p.1)
    (ht : Q t) :
    ∀ p ∈ stepMono P isAlpha d t,
      (p.2 = 0 ↔ p.1 ∈ P) ∧ isAlpha p.1 = true ∧ Q p.1 := by
  intro p hp
  unfold stepMono at hp
  split at hp
  case isTrue halpha =>
    by_cases htP : t ∈ P
    · rw [if_pos htP] at hp
      rcases mem_alistEnsure hp with h1 | rfl
      · exact hd _ h1
      · exact ⟨by simpa using htP, halpha, ht⟩
    · rw [if_neg htP] at hp
      rcases mem_alistIncr hp with ⟨q, hq, rfl⟩
      rcases mem_alistEnsure hq with h1 | rfl
      · by_cases hqt : q.1 = t
        · rw [if_pos hqt]
          exact ⟨by simp [hqt, htP], (hd _ h1).2.1, (hd _ h1).2.2⟩
        · rw [if_neg hqt]
          exact hd _ h1
      · rw [if_pos rfl]
        exact ⟨by simpa using htP, halpha, ht⟩
  case isFalse => exact hd _ hp

/-- Folding a line's monograms preserves the invariant. -/
theorem foldMono_inv {P : List String} {isAlpha : String → Bool}
    {Q : String → Prop} :
    ∀ (toks : List String) (d : List (String × ℕ)),
      (∀ p ∈ d, (p.2 = 0 ↔ p.1 ∈ P) ∧ isAlpha p.1 = true ∧ Q p.1) →
      (∀ t ∈ toks, Q t) →
      ∀ p ∈ toks.foldl (stepMono P isAlpha) d,
        (p.2 = 0 ↔ p.1 ∈ P) ∧ isAlpha p.1 = true ∧ Q p.1 := by
  intro toks
  induction toks with
  | nil => intro d hd _ p hp; exact hd p hp
  | cons t ts ih =>
    intro d hd hQ p hp
    exact ih _ (stepMono_inv hd (hQ t (by simp)))
      (fun u hu => hQ u (by simp [hu])) p hp

/-- One bigram step preserves positivity of all counts. -/
theorem stepBi_inv {P : List String} {isAlpha : String → Bool}
    {d : List ((String × String) × ℕ)} {pr : String × String}
    (hd : ∀ p ∈ d, 1 ≤ p.2) : ∀ p ∈ stepBi P isAlpha d pr, 1 ≤ p.2 := by
  intro p hp
  unfold stepBi at hp
  split at hp
  · rcases mem_alistIncr hp with ⟨q, hq, rfl⟩
    rcases mem_alistEnsure hq with h1 | rfl
    · by_cases hqp : q.1 = pr
      · rw [if_pos hqp]; exact Nat.le_succ_of_le (hd _ h1)
      · rw [if_neg hqp]; exact hd _ h1
    · rw [if_pos rfl]
  · exact hd _ hp

/-- Folding a line's bigrams preserves positivity of all counts. -/
theorem foldBi_inv {P : List String} {isAlpha : String → Bool} :
    ∀ (prs : List (String × String)) (d : List ((String × String) × ℕ)),
      (∀ p ∈ d, 1 ≤ p.2) →
      ∀ p ∈ prs.foldl (stepBi P isAlpha) d, 1 ≤ p.2 := by
  intro prs
  induction prs with
  | nil => intro d hd p hp; exact hd p hp
  | cons pr rest ih => intro d hd p hp; exact ih _ (stepBi_inv hd) p hp

/-- Membership after one sorted insertion. -/
theorem mem_insertByCountDesc {κ : Type} {x p : κ × ℕ} :
    ∀ {l : List (κ × ℕ)}, p ∈ insertByCountDesc x l ↔ p = x ∨ p ∈ l := by
  intro l
  induction l with
  | nil => simp [insertByCountDesc]
  | cons y ys ih =>
    unfold insertByCountDesc
    split
    · simp
    · simp only [List.mem_cons, ih]
      tauto

/-- Sorting does not change the entries of a table. -/
theorem mem_sortByCountDesc {κ : Type} {l : List (κ × ℕ)} {p : κ × ℕ} :
    p ∈ sortByCountDesc l ↔ p ∈ l := by
  have key : ∀ (l acc : List (κ × ℕ)),
      p ∈ l.foldl (fun acc x => insertByCountDesc x acc) acc ↔
        p ∈ acc ∨ p ∈ l := by
    intro l
    induction l with
    | nil => simp
    | cons x xs ih =>
      intro acc
      simp only [List.foldl_cons, ih, mem_insertByCountDesc, List.mem_cons]
      tauto
  simpa using key l []

/-- The combined invariant carried over the whole corpus fold of
`generate_ngrams`. -/
theorem corpusFold_inv (normalize : String → String) (isAlpha : String → Bool)
    (P : List String) (Q : String → Prop) :
    ∀ (corpus : List (List String))
      (st : List (String × ℕ) × List ((String × String) × ℕ)),
      (∀ p ∈ st.1, (p.2 = 0 ↔ p.1 ∈ P) ∧ isAlpha p.1 = true ∧ Q p.1) →
      (∀ p ∈ st.2, 1 ≤ p.2) →
      (∀ toks ∈ corpus, ∀ t ∈ toks.map normalize, Q t) →
      (∀ p ∈ (corpus.foldl (fun st toks =>
          let ntoks := toks.map normalize
          (ntoks.foldl (stepMono P isAlpha) st.1,
           (ntoks.zip ntoks.tail).foldl (stepBi P isAlpha) st.2)) st).1,
          (p.2 = 0 ↔ p.1 ∈ P) ∧ isAlpha p.1 = true ∧ Q p.1) ∧
      (∀ p ∈ (corpus.foldl (fun st toks =>
          let ntoks := toks.map normalize
          (ntoks.foldl (stepMono P isAlpha) st.1,
           (ntoks.zip ntoks.tail).foldl (stepBi P isAlpha) st.2)) st).2,
          1 ≤ p.2) := by
  intro corpus
  induction corpus with
  | nil => intro st h1 h2 _; exact ⟨h1, h2⟩
  | cons toks rest ih =>
    intro st h1 h2 hQ
    simp only [List.foldl_cons]
    exact ih _
      (foldMono_inv _ _ h1 (hQ toks (by simp)) ·)
      (foldBi_inv _ _ h2 ·)
      (fun l hl => hQ l (by simp [hl]))

/-- Claim C7: in the tables produced by `generate_ngrams`, a monogram entry
has count `0` iff its token is in the profanity set (and every entry's key is
an alphabetic token actually seen — normalized — in the corpus, so unseen
tokens have no entry), and every bigram entry has count `≥ 1`. -/
theorem C7_counting_invariant (normalize : String → String)
    (isAlpha : String → Bool) (P : List String)
    (corpus : List (List String)) :
    (∀ p ∈ (generate_ngrams normalize isAlpha P corpus).1,
        (p.2 = 0 ↔ p.1 ∈ P) ∧ isAlpha p.1 = true ∧
        p.1 ∈ (corpus.map (fun toks => toks.map normalize)).flatten) ∧
    (∀ p ∈ (generate_ngrams normalize isAlpha P corpus).2, 1 ≤ p.2) := by
  have h := corpusFold_inv normalize isAlpha P
    (fun t => t ∈ (corpus.map (fun toks => toks.map normalize)).flatten)
    corpus ([], []) (by simp) (by simp)
    (fun toks htoks t ht =>
      List.mem_flatten.mpr ⟨toks.map normalize,
        List.mem_map_of_mem _ htoks, ht⟩)
  unfold generate_ngrams
  exact ⟨fun p hp => h.1 p (mem_sortByCountDesc.mp hp),
    fun p hp => h.2 p (mem_sortByCountDesc.mp hp)⟩

/-- Witness for C7 on the corpus `[["aa","damn"],["aa","bb"]]` with profanity
set `{"damn"}`: the entry `("damn", 0)` is in the monogram table, and the
claim's invariant applied to it shows `"damn"` is in the profanity set. -/
theorem C7_counting_invariant_witness : ("damn" : String) ∈ ["damn"] :=
  (((C7_counting_invariant id (fun _ => true) ["damn"]
      [["aa", "damn"], ["aa", "bb"]]).1 ("damn", 0) (by decide)).1).mp rfl

/-! ## Claims about the writing phase -/

/-- Claim C10: with an empty monogram or bigram list, `write_wordlist` raises
`ValueError` (Python's `max` of an empty sequence) before the output file is
opened, so nothing — not even the header — is written. -/
theorem C10_empty_table_fatal (ctx : Ctx) (monograms : List (String × ℕ))
    (bigrams : List ((String × String) × ℕ)) (lang description : String)
    (timestamp : ℤ) (offensive : List String)
    (h : monograms = [] ∨ bigrams = []) :
    write_wordlist ctx monograms bigrams lang description timestamp offensive
      = ⟨false, [], some .valueError⟩ := by
  rcases h with rfl | rfl
  · simp [write_wordlist]
  · unfold write_wordlist
    rcases monograms with _ | ⟨m, ms⟩ <;> simp

/-- Witness for C10: valid monograms but no bigrams at all. -/
theorem C10_empty_table_fatal_witness :
    write_wordlist ctxReject [("aa", 1)] [] "en" "d" 0 []
      = ⟨false, [], some .valueError⟩ :=
  C10_empty_table_fatal ctxReject [("aa", 1)] [] "en" "d" 0 [] (Or.inr rfl)

/-- Claim C4, counterexample: with the overall limit `0` the run does not
produce a header-only artifact — the output file is never opened and no line
at all is written (`max([])` raises `ValueError` first). -/
theorem C4_counterexample :
    main_run ctxReject id (fun _ => true) [["aa", "bb"]] [] [] 0 "en" "d" 0
      = ⟨false, [], some .valueError⟩ ∧
    (main_run ctxReject id (fun _ => true) [["aa", "bb"]] [] [] 0 "en" "d" 0).lines
      ≠ ["dictionary=main:en,locale=en,description=d,date=0,version=1"] := by
  constructor
  · decide
  · decide

/-- Claim C4 (amended): with the overall entry limit set to `0`, both
truncated tables are empty, so the run raises `ValueError` before the output
file is opened and produces no artifact at all — not even the header line. -/
theorem C4_limit_zero (ctx : Ctx) (normalize : String → String)
    (isAlpha : String → Bool) (corpus : List (List String))
    (profanityList offensiveList : List String) (lang description : String)
    (timestamp : ℤ) :
    main_run ctx normalize isAlpha corpus profanityList offensiveList 0
      lang description timestamp = ⟨false, [], some .valueError⟩ := by
  unfold main_run
  simp [write_wordlist]

/-- Witness for C4 at a concrete run. -/
theorem C4_limit_zero_witness :
    main_run ctxReject id (fun _ => true) [["xx"]] [] [] 0 "fr" "desc" 9
      = ⟨false, [], some .valueError⟩ :=
  C4_limit_zero ctxReject id (fun _ => true) [["xx"]] [] [] "fr" "desc" 9

/-- Claim C9: assembly is deterministic — identical tables, offensive set,
language, description, timestamp and validator give byte-identical output. -/
theorem C9_deterministic (ctx ctx' : Ctx)
    (monograms monograms' : List (String × ℕ))
    (bigrams bigrams' : List ((String × String) × ℕ))
    (lang lang' description description' : String) (timestamp timestamp' : ℤ)
    (offensive offensive' : List String)
    (h1 : ctx = ctx') (h2 : monograms = monograms') (h3 : bigrams = bigrams')
    (h4 : lang = lang') (h5 : description = description')
    (h6 : timestamp = timestamp') (h7 : offensive = offensive') :
    write_wordlist ctx monograms bigrams lang description timestamp offensive
      = write_wordlist ctx' monograms' bigrams' lang' description' timestamp'
          offensive' := by
  subst h1 h2 h3 h4 h5 h6 h7
  rfl

/-- Witness for C9 at a concrete run. -/
theorem C9_deterministic_witness :
    write_wordlist ctxReject [("aa", 0)] [(("aa", "bb"), 1)] "en" "d" 5 []
      = write_wordlist ctxReject [("aa", 0)] [(("aa", "bb"), 1)] "en" "d" 5 []
    :=
  C9_deterministic ctxReject ctxReject [("aa", 0)] [("aa", 0)]
    [(("aa", "bb"), 1)] [(("aa", "bb"), 1)] "en" "en" "d" "d" 5 5 [] []
    rfl rfl rfl rfl rfl rfl rfl

/-! ## Writing-loop lemmas -/

/-- Sequencing after a successful region concatenates its lines. -/
theorem Emit_andThen_ok (l : List String) (e : Emit) :
    Emit.andThen ⟨l, none⟩ e = ⟨l ++ e.lines, e.error⟩ := rfl

/-- Unfolding one monogram iteration once the surface form and the frequency
are known: the ` word=` line, then the bigram group looked up with the
resolved surface form `w`. -/
theorem writeMonogram_eq (ctx : Ctx) (off : List String) (maxM maxB : ℕ)
    (bd : List (String × List (String × ℕ))) (t w : String) (c : ℕ) (f : ℤ)
    (hw : resolveWord ctx t = some w) (hf : monogram_freq c maxM = .ok f) :
    writeMonogram ctx off maxM maxB bd (t, c) =
      ⟨(" word=" ++ w ++ ",f=" ++ toString f ++
          (if w ∈ off then ",possibly_offensive=true" else "")) ::
          (writeBigrams ctx off maxB (dictGet bd w)).lines,
        (writeBigrams ctx off maxB (dictGet bd w)).error⟩ := by
  unfold writeMonogram
  rw [hw, hf]
  rfl

/-- A trailing token whose validation raises `UnicodeEncodeError` is
skipped. -/
theorem writeBigrams_skip_err (ctx : Ctx) (off : List String) (maxB : ℕ)
    (p : String × ℕ) (rest : List (String × ℕ)) (u : Unit)
    (h : ctx.spell p.1 = .error u) :
    writeBigrams ctx off maxB (p :: rest) = writeBigrams ctx off maxB rest := by
  rw [writeBigrams, h]

/-- A trailing token the validator rejects is skipped — with no capitalized
retry, whatever the validator would say about the capitalized form. -/
theorem writeBigrams_skip (ctx : Ctx) (off : List String) (maxB : ℕ)
    (p : String × ℕ) (rest : List (String × ℕ))
    (h : ctx.spell p.1 = .ok false) :
    writeBigrams ctx off maxB (p :: rest) = writeBigrams ctx off maxB rest := by
  rw [writeBigrams, h]

/-- A trailing token the validator accepts is written — under its stored
(lowercase, normalized) form. -/
theorem writeBigrams_cons_ok (ctx : Ctx) (off : List String) (maxB : ℕ)
    (p : String × ℕ) (rest : List (String × ℕ)) (f : ℤ)
    (h : ctx.spell p.1 = .ok true)
    (hf : word_cnt_to_freq p.2 maxB true = .ok f) :
    writeBigrams ctx off maxB (p :: rest) =
      ⟨("  bigram=" ++ p.1 ++ ",f=" ++ toString f ++
          (if p.1 ∈ off then ",possibly_offensive=true" else "")) ::
          (writeBigrams ctx off maxB rest).lines,
        (writeBigrams ctx off maxB rest).error⟩ := by
  rw [writeBigrams, h, hf]
  exact Emit_andThen_ok _ _

/-- Looking up a key that heads no group yields the empty group. -/
theorem dictGet_eq_nil_of_no_key (bd : List (String × List (String × ℕ)))
    (w : String) (h : ∀ e ∈ bd, e.1 ≠ w) : dictGet bd w = [] := by
  unfold dictGet
  rw [List.find?_eq_none.mpr (fun e he => by simpa using h e he)]

/-- Claim C2, counterexample: with tables `{cat: 2}`,
`{(cat, sat): 2}` and a validator accepting only `"Cat"` (capitalized) and
`"sat"`, the word `cat` is emitted as `Cat` but the bigram grouping index is
consulted with the resolved form `"Cat"` — not the original lowercase key
`"cat"` — so no bigram line at all is written, although the group under
`"cat"` is nonempty and its trailing token `sat` validates. -/
theorem C2_counterexample :
    write_wordlist ctxCapCat [("cat", 2)] [(("cat", "sat"), 2)] "en" "d" 0 []
      = ⟨true, ["dictionary=main:en,locale=en,description=d,date=0,version=1",
          " word=Cat,f=175"], none⟩ ∧
    "  bigram=sat,f=255" ∉
      (write_wordlist ctxCapCat [("cat", 2)] [(("cat", "sat"), 2)] "en" "d" 0
        []).lines := by
  have hm : monogram_freq 2 2 = Except.ok 175 := by
    simp [monogram_freq, wctf_2_2_uni]
  have hw : resolveWord ctxCapCat "cat" = some "Cat" := by decide
  have hone : writeMonogram ctxCapCat [] 2 2 [("cat", [("sat", 2)])]
      ("cat", 2) = ⟨[" word=Cat,f=175"], none⟩ := by
    rw [writeMonogram_eq ctxCapCat [] 2 2 [("cat", [("sat", 2)])] "cat" "Cat"
      2 175 hw hm]
    decide
  have hbody : writeBody ctxCapCat [] 2 2 [("cat", [("sat", 2)])]
      [("cat", 2)] = ⟨[" word=Cat,f=175"], none⟩ := by
    unfold writeBody
    rw [hone]
    decide
  have e1 : (([("cat", 2)] : List (String × ℕ)).map Prod.snd).foldl Nat.max 0
      = 2 := by decide
  have e2 : (([(("cat", "sat"), 2)] :
      List ((String × String) × ℕ)).map Prod.snd).foldl Nat.max 0 = 2 := by
    decide
  have e3 : bigram_dict [(("cat", "sat"), 2)] = [("cat", [("sat", 2)])] := by
    decide
  have hmain : write_wordlist ctxCapCat [("cat", 2)] [(("cat", "sat"), 2)]
      "en" "d" 0 []
      = ⟨true, ["dictionary=main:en,locale=en,description=d,date=0,version=1",
          " word=Cat,f=175"], none⟩ := by
    unfold write_wordlist
    rw [if_neg (by decide), if_neg (by decide)]
    simp only [e1, e2, e3, hbody]
    decide
  refine ⟨hmain, ?_⟩
  rw [hmain]
  decide

/-- Claim C2 (amended): the bigram lines written after a word line are
obtained by looking up the grouping index with the *resolved* surface form
(which coincides with the original lowercase key only when the lowercase form
validated); consequently, when a word is accepted only in capitalized form
and that capitalized form heads no group, no bigram lines are emitted beneath
it even if the lowercase key's group is nonempty. -/
theorem C2_bigram_lookup (ctx : Ctx) (off : List String) (maxM maxB : ℕ)
    (bd : List (String × List (String × ℕ))) (t w : String) (c : ℕ) (f : ℤ)
    (hw : resolveWord ctx t = some w) (hf : monogram_freq c maxM = .ok f) :
    (writeMonogram ctx off maxM maxB bd (t, c)).lines =
      (" word=" ++ w ++ ",f=" ++ toString f ++
        (if w ∈ off then ",possibly_offensive=true" else "")) ::
        (writeBigrams ctx off maxB (dictGet bd w)).lines ∧
    ((∀ e ∈ bd, e.1 ≠ w) →
      (writeMonogram ctx off maxM maxB bd (t, c)).lines =
        [" word=" ++ w ++ ",f=" ++ toString f ++
          (if w ∈ off then ",possibly_offensive=true" else "")]) := by
  rw [writeMonogram_eq ctx off maxM maxB bd t w c f hw hf]
  refine ⟨rfl, fun hkey => ?_⟩
  rw [dictGet_eq_nil_of_no_key bd w hkey]
  rfl

/-- Witness for C2 at a concrete capitalized-only word whose lowercase key
heads a nonempty group. -/
theorem C2_bigram_lookup_witness :
    (writeMonogram ctxCapCat [] 5 5 [("cat", [("sat", 2)])] ("cat", 0)).lines
      = [" word=Cat,f=0"] := by
  have h := (C2_bigram_lookup ctxCapCat [] 5 5 [("cat", [("sat", 2)])] "cat"
    "Cat" 0 0 (by decide) (by simp [monogram_freq])).2 (by decide)
  rw [h]
  decide

/-- Reassociate a string concatenation and fold two literal chunks. -/
theorem str_chunk (x a b c : String) (h : a ++ b = c) :
    x ++ a ++ b = x ++ c := by
  rw [String.append_assoc, h]

/-- Claim C6, counterexample: with tables `{the: 2, cat: 2}`,
`{(the, cat): 2}` and a validator accepting only `"the"` and `"Cat"`, the
word `cat` itself is emitted as `Cat` (the capitalized retry fires for word
entries) — but as the trailing token of the bigram `(the, cat)` it is only
tried in its stored lowercase form and is skipped, so no bigram line is
emitted in either casing. -/
theorem C6_counterexample :
    write_wordlist ctxTheCat [("the", 2), ("cat", 2)] [(("the", "cat"), 2)]
      "en" "d" 0 []
      = ⟨true, ["dictionary=main:en,locale=en,description=d,date=0,version=1",
          " word=the,f=175", " word=Cat,f=175"], none⟩ ∧
    "  bigram=Cat,f=255" ∉
      (write_wordlist ctxTheCat [("the", 2), ("cat", 2)]
        [(("the", "cat"), 2)] "en" "d" 0 []).lines ∧
    "  bigram=cat,f=255" ∉
      (write_wordlist ctxTheCat [("the", 2), ("cat", 2)]
        [(("the", "cat"), 2)] "en" "d" 0 []).lines := by
  have hm : monogram_freq 2 2 = Except.ok 175 := by
    simp [monogram_freq, wctf_2_2_uni]
  have hthe : resolveWord ctxTheCat "the" = some "the" := by decide
  have hcat : resolveWord ctxTheCat "cat" = some "Cat" := by decide
  have h1 : writeMonogram ctxTheCat [] 2 2 [("the", [("cat", 2)])]
      ("the", 2) = ⟨[" word=the,f=175"], none⟩ := by
    rw [writeMonogram_eq ctxTheCat [] 2 2 [("the", [("cat", 2)])] "the" "the"
      2 175 hthe hm]
    decide
  have h2 : writeMonogram ctxTheCat [] 2 2 [("the", [("cat", 2)])]
      ("cat", 2) = ⟨[" word=Cat,f=175"], none⟩ := by
    rw [writeMonogram_eq ctxTheCat [] 2 2 [("the", [("cat", 2)])] "cat" "Cat"
      2 175 hcat hm]
    decide
  have hbody2 : writeBody ctxTheCat [] 2 2 [("the", [("cat", 2)])]
      [("cat", 2)] = ⟨[" word=Cat,f=175"], none⟩ := by
    rw [writeBody, h2]
    decide
  have hbody : writeBody ctxTheCat [] 2 2 [("the", [("cat", 2)])]
      [("the", 2), ("cat", 2)]
      = ⟨[" word=the,f=175", " word=Cat,f=175"], none⟩ := by
    rw [writeBody, h1, hbody2]
    decide
  have e1 : (([("the", 2), ("cat", 2)] : List (String × ℕ)).map
      Prod.snd).foldl Nat.max 0 = 2 := by decide
  have e2 : (([(("the", "cat"), 2)] :
      List ((String × String) × ℕ)).map Prod.snd).foldl Nat.max 0 = 2 := by
    decide
  have e3 : bigram_dict [(("the", "cat"), 2)] = [("the", [("cat", 2)])] := by
    decide
  have hmain : write_wordlist ctxTheCat [("the", 2), ("cat", 2)]
      [(("the", "cat"), 2)] "en" "d" 0 []
      = ⟨true, ["dictionary=main:en,locale=en,description=d,date=0,version=1",
          " word=the,f=175", " word=Cat,f=175"], none⟩ := by
    unfold write_wordlist
    rw [if_neg (by decide), if_neg (by decide)]
    simp only [e1, e2, e3, hbody]
    decide
  refine ⟨hmain, ?_, ?_⟩ <;> rw [hmain] <;> decide

/-- Claim C6 (amended): for word entries the validator is consulted first
with the normalized lowercase form, then — only on a clean rejection — with
the capitalized form, the accepted surface form is the one used, and the word
is skipped if both fail; bigram trailing tokens, however, are consulted only
in their stored lowercase form — a rejected trailing token is skipped with no
capitalized retry (even when the validator would accept the capitalized
form), and an accepted one is written under the stored form. -/
theorem C6_validator_consultation (ctx : Ctx) (k : String)
    (off : List String) (maxB : ℕ) (p : String × ℕ)
    (rest : List (String × ℕ)) (f : ℤ) :
    (ctx.spell k = .ok true → resolveWord ctx k = some k) ∧
    (ctx.spell k = .ok false → ctx.spell (ctx.capitalize k) = .ok true →
      resolveWord ctx k = some (ctx.capitalize k)) ∧
    (ctx.spell k = .ok false → ctx.spell (ctx.capitalize k) = .ok false →
      resolveWord ctx k = none) ∧
    (ctx.spell p.1 = .ok false → ctx.spell (ctx.capitalize p.1) = .ok true →
      writeBigrams ctx off maxB (p :: rest) =
        writeBigrams ctx off maxB rest) ∧
    (ctx.spell p.1 = .ok true → word_cnt_to_freq p.2 maxB true = .ok f →
      (writeBigrams ctx off maxB (p :: rest)).lines =
        ("  bigram=" ++ p.1 ++ ",f=" ++ toString f ++
          (if p.1 ∈ off then ",possibly_offensive=true" else "")) ::
          (writeBigrams ctx off maxB rest).lines) := by
  refine ⟨fun h => ?_, fun h1 h2 => ?_, fun h1 h2 => ?_, fun h1 _ => ?_,
    fun h1 h2 => ?_⟩
  · unfold resolveWord
    rw [h]
  · unfold resolveWord
    rw [h1, h2]
  · unfold resolveWord
    rw [h1, h2]
  · exact writeBigrams_skip ctx off maxB p rest h1
  · rw [writeBigrams_cons_ok ctx off maxB p rest f h1 h2]

/-- Witness for C6: under `ctxTheCat`, the word key `"cat"` resolves to the
capitalized `"Cat"`, while as a bigram trailing token `("cat", 2)` it is
skipped outright. -/
theorem C6_validator_consultation_witness :
    resolveWord ctxTheCat "cat" = some (ctxTheCat.capitalize "cat") ∧
    writeBigrams ctxTheCat [] 2 [("cat", 2)] = writeBigrams ctxTheCat [] 2 []
    := by
  have h := C6_validator_consultation ctxTheCat "cat" [] 2 ("cat", 2) [] 255
  exact ⟨h.2.1 rfl rfl, h.2.2.2.1 rfl rfl⟩

/-- Claim C3, counterexample: the corpus `[["aa","bb"],["damn"]]` with
profanity set `{"damn"}` and a validator accepting only the capitalized
`"Damn"` yields the word line ` word=Damn,f=0` — `f=0` holds, but the
`possibly_offensive=true` suffix is missing, because the offensive-set test
is made against the resolved surface form `"Damn"`, which is not in the
(lowercase) set. -/
theorem C3_counterexample :
    main_run ctxDamn id (fun _ => true) [["aa", "bb"], ["damn"]] ["damn"] []
      100 "en" "d" 0
      = ⟨true, ["dictionary=main:en,locale=en,description=d,date=0,version=1",
          " word=Damn,f=0"], none⟩ ∧
    resolveWord ctxDamn "damn" = some "Damn" ∧
    " word=Damn,f=0,possibly_offensive=true" ∉
      (main_run ctxDamn id (fun _ => true) [["aa", "bb"], ["damn"]] ["damn"]
        [] 100 "en" "d" 0).lines := by
  refine ⟨by decide, by decide, by decide⟩

/-- Claim C3 (amended): a word-table entry with count `0` (the profanity
marker) that resolves to some surface form is always written with `f=0`, and
it carries the `possibly_offensive=true` suffix exactly when the *resolved*
surface form is in the offensive set — in particular always when the
lowercase form itself is accepted and offensive-listed; when only the
capitalized form is accepted, the suffix can be absent. -/
theorem C3_profanity_entry (ctx : Ctx) (off : List String) (maxM maxB : ℕ)
    (bd : List (String × List (String × ℕ))) (t w : String)
    (hw : resolveWord ctx t = some w) :
    (writeMonogram ctx off maxM maxB bd (t, 0)).lines.head? =
      some (" word=" ++ w ++ ",f=0" ++
        (if w ∈ off then ",possibly_offensive=true" else "")) ∧
    (ctx.spell t = .ok true → t ∈ off →
      (writeMonogram ctx off maxM maxB bd (t, 0)).lines.head? =
        some (" word=" ++ t ++ ",f=0,possibly_offensive=true")) := by
  have hf : monogram_freq 0 maxM = .ok 0 := by simp [monogram_freq]
  rw [writeMonogram_eq ctx off maxM maxB bd t w 0 0 hw hf]
  have hz : (" word=" ++ w ++ ",f=") ++ toString (0 : ℤ)
      = " word=" ++ w ++ ",f=0" :=
    str_chunk (" word=" ++ w) ",f=" (toString (0 : ℤ)) ",f=0" (by decide)
  constructor
  · rw [List.head?_cons, hz]
  · intro hsp hoff
    have hwt : w = t := by
      have : resolveWord ctx t = some t := by
        unfold resolveWord
        rw [hsp]
      rw [this] at hw
      exact (Option.some_inj.mp hw).symm
    subst hwt
    rw [List.head?_cons, hz, if_pos hoff,
      str_chunk (" word=" ++ w) ",f=0" ",possibly_offensive=true"
        ",f=0,possibly_offensive=true" (by decide)]

/-- Witness for C3: an accepted, offensive-listed lowercase profane word gets
both `f=0` and the suffix. -/
theorem C3_profanity_entry_witness :
    (writeMonogram ctxAcceptAll ["damn"] 3 3 [] ("damn", 0)).lines.head? =
      some " word=damn,f=0,possibly_offensive=true" := by
  have h := (C3_profanity_entry ctxAcceptAll ["damn"] 3 3 [] "damn" "damn"
    (by decide)).2 rfl (by decide)
  rw [h]
  decide

end WordlistTool
